import Mathlib

/-!
Verification of the Lingua Franca runtime infrastructure (RTI) start-time
coordinator, a shallow embedding of
src/xtext/org.icyphy.linguafranca/src/lib/C/rti.c.

The RTI accepts one TCP connection per federate, runs one handler thread per
connection (function federate, lines 109-178), and realizes a barrier over the
globals num_feds_proposed_start and max_start_time (lines 64-70) protected by a
single mutex.  We embed:

- the per-connection read loop (lines 116-124) over an explicit schedule of
  read results,
- message decoding and the permissive tag check (lines 132-137),
- the barrier as an interleaving transition system, one atomic step per
  mutex-protected critical section or per blocking-primitive return,
- the response writes and their error treatment (lines 163-172),
- the accept-loop error guard of connect_to_federates (line 198).
-/

/-- Modelled from the spec: the message tag constant TIMESTAMP comes from rti.h,
which is not part of src/.  The spec fixes only that it is a well-known one-byte
tag value, so an arbitrary byte value is fixed here; no claim depends on the
numeric choice. -/
def TIMESTAMP : Nat := 9

/-- Modelled from the spec: util.c (not in src/) defines
swap_bytes_if_little_endian_ll, which per the spec converts the 8 payload bytes
from network (big-endian) byte order into the host's signed 64-bit integer.
This is the composite effect of the raw load at rti.c line 137 followed by the
conditional swap: interpret the byte list big-endian, then take the signed
two's-complement value. -/
def decodeInstant (bs : List Nat) : Int :=
  let n : Nat := bs.foldl (fun a b => a * 256 + b % 256) 0
  if n < 2 ^ 63 then (n : Int) else (n : Int) - 2 ^ 64

/-- Big-endian two's-complement encoding of the low 64 bits of an instant, the
wire form produced on the sending side by swap_bytes_if_little_endian_ll at
rti.c line 170. -/
def encodeInstant (t : Int) : List Nat :=
  let n : Nat := (t % (2 : Int) ^ 64).toNat
  [n / 2 ^ 56 % 256, n / 2 ^ 48 % 256, n / 2 ^ 40 % 256, n / 2 ^ 32 % 256,
   n / 2 ^ 24 % 256, n / 2 ^ 16 % 256, n / 2 ^ 8 % 256, n % 256]

/-- One result of a call to read() on the federate socket (rti.c lines
118-119): a chunk of delivered bytes, end of stream (read returns 0, line 122),
or an I/O error (read returns a negative count, line 120). -/
inductive ReadEv where
  | chunk (bs : List Nat)
  | eof
  | err
deriving DecidableEq

/-- Outcome of the read loop at rti.c lines 116-124: a complete 9-byte buffer,
an early end of stream (the thread returns NULL at line 122), a fatal read
error (error() at line 120 terminates the process), or an incomplete schedule
on which the loop would still be blocked in read(). -/
inductive ReadOutcome where
  | got (buf : List Nat)
  | closedEarly
  | fatal
  | blocked
deriving DecidableEq

/-- The read loop of rti.c lines 116-124: while fewer than 9 bytes have been
accumulated, issue another read; a negative result is fatal, a zero result
(end of stream) aborts the handler, and a positive result appends the
delivered bytes at offset bytes_read of the buffer. -/
def readLoop (evs : List ReadEv) (acc : List Nat) : ReadOutcome :=
  if 9 ≤ acc.length then .got (acc.take 9)
  else
    match evs with
    | [] => .blocked
    | .err :: _ => .fatal
    | .eof :: _ => .closedEarly
    | .chunk bs :: rest => readLoop rest (acc ++ bs)

/-- All bytes the connection delivers before the stream ends or errors. -/
def streamBytes : List ReadEv → List Nat
  | [] => []
  | .chunk bs :: rest => bs ++ streamBytes rest
  | .eof :: _ => []
  | .err :: _ => []

/-- Well-formedness of a read schedule against the POSIX contract the C loop
relies on: each successful read delivers at least one byte and at most the
requested count (the second read argument, sizeof(long long) + 1 - bytes_read).
The argument need is the number of bytes the loop still wants; once it is 0 the
loop has exited and the rest of the schedule is unconstrained. -/
def chunksWF : List ReadEv → Nat → Bool
  | _, 0 => true
  | [], _ + 1 => true
  | .chunk bs :: rest, need + 1 =>
      decide (0 < bs.length) && decide (bs.length ≤ need + 1) &&
        chunksWF rest (need + 1 - bs.length)
  | .eof :: _, _ + 1 => true
  | .err :: _, _ + 1 => true

/-- Outcome of the front half of the federate thread (rti.c lines 109-137):
how the handler leaves the read-and-decode phase.  On a complete buffer the
handler proceeds with the tag byte buffer[0] and the instant decoded from
buffer[1..8] (line 137); the tag check at lines 133-135 only prints a warning
and does not change control flow. -/
inductive HandlerOutcome where
  | earlyExit
  | fatalErr
  | blocked
  | completed (tag : Nat) (t : Int)
deriving DecidableEq

/-- Read-and-decode phase of the federate thread, rti.c lines 113-137. -/
def handlerFront (evs : List ReadEv) : HandlerOutcome :=
  match readLoop evs [] with
  | .got buf => .completed (buf.headD 0) (decodeInstant (buf.drop 1))
  | .closedEarly => .earlyExit
  | .fatal => .fatalErr
  | .blocked => .blocked

/-- The instant a handler submits to the barrier, if any: only a handler that
assembled a complete 9-byte message reaches the critical section at line 140,
and it submits the decoded instant regardless of the tag byte. -/
def handlerProposal (evs : List ReadEv) : Option Int :=
  match handlerFront evs with
  | .completed _ t => some t
  | _ => none

/-- Whether the handler prints the protocol warning of rti.c lines 133-135. -/
def tagWarns (buf : List Nat) : Bool := buf.headD 0 != TIMESTAMP

/-- Whether a handler path calls close() on the client socket: only the
completed path reaches line 175.  The early end-of-stream return at line 122
exits the thread without closing, and the error() paths (per the spec)
terminate the whole process. -/
def closesSocket : HandlerOutcome → Bool
  | .completed _ _ => true
  | _ => false

/-- Control state of one federate thread with respect to the barrier of rti.c
lines 140-156: before its critical section, blocked in pthread_cond_wait,
past the barrier but before reading max_start_time for the response, or done
with the response value it wrote back (lines 170-171). -/
inductive TStat where
  | start
  | waiting
  | released
  | done (v : Int)
deriving DecidableEq

/-- Shared coordinator state: num_feds_proposed_start (line 70), max_start_time
(line 67), and the control state of each handler thread. -/
structure SysSt where
  arrived : Nat
  maxST : Int
  st : List TStat
deriving DecidableEq

/-- The conditional update of max_start_time at rti.c lines 142-144. -/
def maxUpd (m t : Int) : Int := if t > m then t else m

/-- Accumulation of a list of proposals: max_start_time starts at 0LL (line 67)
and each arrival applies the line 142-144 update. -/
def aggregate (ts : List Int) : Int := ts.foldl maxUpd 0

/-- Decoded instants of a list of 9-byte proposal messages: the tag byte is
dropped and the remaining 8 bytes are decoded as at rti.c line 137. -/
def decodedList (msgs : List (List Nat)) : List Int :=
  msgs.map fun m => decodeInstant (m.drop 1)

/-- Whether a thread has executed its increment of num_feds_proposed_start. -/
def proposedB : TStat → Bool
  | .start => false
  | _ => true

/-- Whether a thread has been released from the barrier (or has finished). -/
def relOrDone : TStat → Bool
  | .released => true
  | .done _ => true
  | _ => false

/-- Interleaving semantics of the federate threads around the mutex-protected
barrier.  Each constructor is one atomic step, justified by the single mutex of
rti.c line 52: propose is the critical section of lines 140-156 up to either
the broadcast (lines 145-147, when the incremented count reaches
number_of_federates the caller itself passes the barrier) or the first
pthread_cond_wait (line 153); wake is one return from pthread_cond_wait
together with the re-check of the while guard at line 151 (a spurious wakeup
with the guard still true goes back to waiting); finish is the read of
max_start_time at line 170 and the write of the response. -/
inductive Step (cfg : List Int) : SysSt → SysSt → Prop
  | propose {s : SysSt} (i : Nat) (t : Int)
      (hst : s.st[i]? = some .start) (ht : cfg[i]? = some t) :
      Step cfg s ⟨s.arrived + 1, maxUpd s.maxST t,
        s.st.set i (if s.arrived + 1 = cfg.length then .released else .waiting)⟩
  | wake {s : SysSt} (i : Nat) (hst : s.st[i]? = some .waiting) :
      Step cfg s ⟨s.arrived, s.maxST,
        s.st.set i (if s.arrived < cfg.length then .waiting else .released)⟩
  | finish {s : SysSt} (i : Nat) (hst : s.st[i]? = some .released) :
      Step cfg s ⟨s.arrived, s.maxST, s.st.set i (.done s.maxST)⟩

/-- The state at program start: counters zero (lines 67, 70), every thread
before its critical section. -/
def startSt (cfg : List Int) : SysSt :=
  ⟨0, 0, List.replicate cfg.length .start⟩

/-- Reachability under the interleaving semantics for a run whose handler
threads decoded the instants cfg. -/
def Reachable (cfg : List Int) (s : SysSt) : Prop :=
  Relation.ReflTransGen (Step cfg) (startSt cfg) s

/-- Outcome of the response transmission, rti.c lines 163-172. -/
inductive SendOutcome where
  | fatalSend
  | sentOk
deriving DecidableEq

/-- Error treatment of the two response writes, rti.c lines 163-172: the first
write sends the 1 tag byte and only a strictly negative return value aborts
(line 167); then the second write sends the 8 payload bytes and again only a
strictly negative return value aborts (line 172).  Any other pair of return
values, including 0 and short counts, falls through to close(). -/
def sendResponse (w1 w2 : Int) : SendOutcome :=
  if w1 < 0 then .fatalSend
  else if w2 < 0 then .fatalSend
  else .sentOk

/-- The write requests issued for the response, as (requested size, payload):
1 tag byte at line 165, then the 8 payload bytes at line 171. -/
def sendWrites (v : Int) : List (Nat × List Nat) :=
  [(1, [TIMESTAMP]), (8, encodeInstant v)]

/-- The guard of the accept loop at rti.c line 198.  The condition written in
the source is fed_socket_descriptor < 0, which tests the malloc'd array
pointer (line 190), not the accepted descriptor fed_socket_descriptor[i]
returned at line 197; both operands are modelled so the comparison actually
performed is visible. -/
def acceptCheckTriggers (arrayPtr : Int) (acceptedFd : Int) : Bool :=
  arrayPtr < 0

/-- The bind error guard at rti.c line 95: any nonzero result is fatal. -/
def bindFatal (r : Int) : Bool := r != 0

/-- The read error guard at rti.c line 120: a negative count is fatal. -/
def readFatal (more : Int) : Bool := more < 0

/-- The write error guards at rti.c lines 167 and 172. -/
def writeFatal (w : Int) : Bool := w < 0

/-- The response value as the spec sentence of section 8 states it: the
maximum of the proposals alone, max(t1 ... tN), with no 0 joined in.  Stated
for comparison with the value the code computes. -/
def specMaxProposals (ts : List Int) : Int := ts.foldl max (ts.headD 0)

/-! Basic facts about the maximum accumulation. -/

theorem maxUpd_eq_max (m t : Int) : maxUpd m t = max m t := by
  unfold maxUpd
  rcases le_or_lt t m with h | h
  · rw [if_neg (not_lt.mpr h), max_eq_left h]
  · rw [if_pos h, max_eq_right h.le]

theorem foldl_maxUpd_eq (b : Int) (l : List Int) :
    l.foldl maxUpd b = l.foldl max b := by
  induction l generalizing b with
  | nil => rfl
  | cons x r ih => simp only [List.foldl_cons, maxUpd_eq_max, ih]

theorem aggregate_eq_foldl_max (l : List Int) : aggregate l = l.foldl max 0 :=
  foldl_maxUpd_eq 0 l

theorem le_foldl_max (b : Int) (l : List Int) : b ≤ l.foldl max b := by
  induction l generalizing b with
  | nil => simp
  | cons x r ih => exact le_trans (le_max_left b x) (ih _)

theorem mem_le_foldl_max {x : Int} {l : List Int} (b : Int) (hx : x ∈ l) :
    x ≤ l.foldl max b := by
  induction l generalizing b with
  | nil => cases hx
  | cons y r ih =>
    rcases List.mem_cons.mp hx with rfl | h
    · exact le_trans (le_max_right b x) (le_foldl_max _ _)
    · exact ih _ h

theorem foldl_max_le {b m : Int} {l : List Int} (hb : b ≤ m)
    (h : ∀ x ∈ l, x ≤ m) : l.foldl max b ≤ m := by
  induction l generalizing b with
  | nil => simpa using hb
  | cons y r ih =>
    exact ih (max_le hb (h y (List.mem_cons_self y r)))
      fun x hx => h x (List.mem_cons_of_mem _ hx)

theorem foldl_max_zero_of_neg {l : List Int} (h : ∀ x ∈ l, x < 0) :
    l.foldl max (0 : Int) = 0 :=
  le_antisymm (foldl_max_le le_rfl fun x hx => (h x hx).le) (le_foldl_max 0 l)

/-! The inductive invariant of the barrier transition system. -/

/-- Invariant tying the shared counters to the thread control states:
the counter equals the number of threads past their increment; every proposed
instant is bounded by max_start_time; max_start_time is 0 or one of the
proposed instants; it is nonnegative; a thread is past the barrier only when
the counter has reached number_of_federates; and a finished thread recorded
the current max_start_time. -/
structure BarInv (cfg : List Int) (s : SysSt) : Prop where
  len : s.st.length = cfg.length
  count : s.arrived = s.st.countP proposedB
  ub : ∀ (i : Nat) (v : Int) (t : TStat), cfg[i]? = some v →
    s.st[i]? = some t → proposedB t = true → v ≤ s.maxST
  att : s.maxST = 0 ∨ ∃ (i : Nat) (v : Int) (t : TStat), cfg[i]? = some v ∧
    s.st[i]? = some t ∧ proposedB t = true ∧ s.maxST = v
  nonneg : 0 ≤ s.maxST
  relN : ∀ (i : Nat) (t : TStat), s.st[i]? = some t → relOrDone t = true →
    s.arrived = cfg.length
  doneEq : ∀ (i : Nat) (v : Int), s.st[i]? = some (.done v) → v = s.maxST

theorem countP_replicate_start (n : Nat) :
    (List.replicate n TStat.start).countP proposedB = 0 := by
  induction n with
  | zero => rfl
  | succ n ih => rw [List.replicate_succ, List.countP_cons]; simp [proposedB, ih]

theorem inv_start (cfg : List Int) : BarInv cfg (startSt cfg) := by
  refine ⟨by simp [startSt], by simp [startSt, countP_replicate_start], ?_, ?_, ?_, ?_, ?_⟩
  · intro i v t _ hst hp
    rw [startSt] at hst
    simp only [List.getElem?_replicate] at hst
    split at hst
    · cases hst; cases hp
    · cases hst
  · exact Or.inl rfl
  · exact le_refl 0
  · intro i t hst hro
    rw [startSt] at hst
    simp only [List.getElem?_replicate] at hst
    split at hst
    · cases hst; cases hro
    · cases hst
  · intro i v hst
    rw [startSt] at hst
    simp only [List.getElem?_replicate] at hst
    split at hst
    · cases hst
    · cases hst

/-! Helper lemmas for List.set phrased through getElem?. -/

theorem countP_set_of_getElem? (p : TStat → Bool) {l : List TStat} {i : Nat}
    {a : TStat} (h : l[i]? = some a) (b : TStat) :
    (l.set i b).countP p = l.countP p - (if p a then 1 else 0) +
      (if p b then 1 else 0) := by
  obtain ⟨hi, hgi⟩ := List.getElem?_eq_some_iff.mp h
  subst hgi
  exact List.countP_set p l i b hi

theorem getElem?_set_of_some {l : List TStat} {i : Nat} {a : TStat}
    (h : l[i]? = some a) (b : TStat) : (l.set i b)[i]? = some b :=
  List.getElem?_set_self (List.getElem?_eq_some_iff.mp h).1

theorem countP_one_of_getElem? (p : TStat → Bool) {l : List TStat} {i : Nat}
    {a : TStat} (h : l[i]? = some a) (hp : p a = true) : 1 ≤ l.countP p :=
  List.countP_pos_iff.mpr ⟨a, List.getElem?_mem h, hp⟩

/-- Preservation of the barrier invariant by every step. -/
theorem inv_step {cfg : List Int} {s s' : SysSt} (inv : BarInv cfg s)
    (h : Step cfg s s') : BarInv cfg s' := by
  cases h with
  | propose i t hst ht =>
    have hnotN : s.arrived ≠ cfg.length := by
      intro hN
      have hcnt : s.st.countP proposedB = s.st.length := by
        rw [← inv.count, hN, inv.len]
      have hall := List.countP_eq_length.mp hcnt _ (List.getElem?_mem hst)
      cases hall
    have hnoRD : ∀ (j : Nat) (u : TStat), s.st[j]? = some u →
        relOrDone u = true → False :=
      fun j u hj hu => hnotN (inv.relN j u hj hu)
    have hpn : proposedB (if s.arrived + 1 = cfg.length then TStat.released
        else TStat.waiting) = true := by split <;> rfl
    refine ⟨?_, ?_, ?_, ?_, ?_, ?_, ?_⟩
    · show (s.st.set i _).length = cfg.length
      rw [List.length_set]; exact inv.len
    · show s.arrived + 1 = (s.st.set i _).countP proposedB
      rw [countP_set_of_getElem? proposedB hst, hpn, inv.count]
      simp only [proposedB, reduceIte, Bool.false_eq_true, if_false]
      omega
    · intro j v u hcj hsj hpu
      show v ≤ maxUpd s.maxST t
      rw [maxUpd_eq_max]
      by_cases hji : j = i
      · subst hji
        rw [getElem?_set_of_some hst] at hsj
        cases hsj
        have hvt : v = t := by rw [hcj] at ht; cases ht; rfl
        subst hvt
        exact le_max_right _ _
      · rw [List.getElem?_set_ne (Ne.symm hji)] at hsj
        exact le_trans (inv.ub j v u hcj hsj hpu) (le_max_left _ _)
    · show maxUpd s.maxST t = 0 ∨ _
      by_cases hgt : t > s.maxST
      · right
        refine ⟨i, t, _, ht, getElem?_set_of_some hst _, hpn, ?_⟩
        rw [maxUpd, if_pos hgt]
      · have hmu : maxUpd s.maxST t = s.maxST := by rw [maxUpd, if_neg hgt]
        rw [hmu]
        rcases inv.att with h0 | ⟨j, v, u, hcj, hsj, hpu, hv⟩
        · exact Or.inl h0
        · right
          have hji : j ≠ i := by
            intro hh; subst hh
            rw [hst] at hsj; cases hsj
            cases hpu
          exact ⟨j, v, u, hcj,
            by rw [List.getElem?_set_ne (Ne.symm hji)]; exact hsj, hpu, hv⟩
    · show 0 ≤ maxUpd s.maxST t
      rw [maxUpd_eq_max]
      exact le_trans inv.nonneg (le_max_left _ _)
    · intro j u hj hu
      show s.arrived + 1 = cfg.length
      by_cases hji : j = i
      · subst hji
        rw [getElem?_set_of_some hst] at hj
        cases hj
        revert hu
        split
        · next hcond => intro _; exact hcond
        · intro hu; cases hu
      · rw [List.getElem?_set_ne (Ne.symm hji)] at hj
        exact (hnoRD j u hj hu).elim
    · intro j v hj
      by_cases hji : j = i
      · subst hji
        rw [getElem?_set_of_some hst] at hj
        revert hj
        split <;> (intro hj; cases hj)
      · rw [List.getElem?_set_ne (Ne.symm hji)] at hj
        exact (hnoRD j _ hj rfl).elim
  | wake i hst =>
    have harrN : s.arrived ≤ cfg.length := by
      rw [inv.count, ← inv.len]; exact List.countP_le_length _
    have hpn : proposedB (if s.arrived < cfg.length then TStat.waiting
        else TStat.released) = true := by split <;> rfl
    refine ⟨?_, ?_, ?_, ?_, ?_, ?_, ?_⟩
    · show (s.st.set i _).length = cfg.length
      rw [List.length_set]; exact inv.len
    · show s.arrived = (s.st.set i _).countP proposedB
      rw [countP_set_of_getElem? proposedB hst, hpn, inv.count]
      have h1 := countP_one_of_getElem? proposedB hst rfl
      simp only [proposedB, reduceIte]
      omega
    · intro j v u hcj hsj hpu
      show v ≤ s.maxST
      by_cases hji : j = i
      · subst hji
        exact inv.ub j v _ hcj hst rfl
      · rw [List.getElem?_set_ne (Ne.symm hji)] at hsj
        exact inv.ub j v u hcj hsj hpu
    · show s.maxST = 0 ∨ _
      rcases inv.att with h0 | ⟨j, v, u, hcj, hsj, hpu, hv⟩
      · exact Or.inl h0
      · right
        by_cases hji : j = i
        · subst hji
          exact ⟨j, v, _, hcj, getElem?_set_of_some hst _, hpn, by
            rw [hst] at hsj; cases hsj; exact hv⟩
        · exact ⟨j, v, u, hcj,
            by rw [List.getElem?_set_ne (Ne.symm hji)]; exact hsj, hpu, hv⟩
    · exact inv.nonneg
    · intro j u hj hu
      show s.arrived = cfg.length
      by_cases hji : j = i
      · subst hji
        rw [getElem?_set_of_some hst] at hj
        cases hj
        revert hu
        split
        · intro hu; cases hu
        · next hcond => intro _; omega
      · rw [List.getElem?_set_ne (Ne.symm hji)] at hj
        exact inv.relN j u hj hu
    · intro j v hj
      show v = s.maxST
      by_cases hji : j = i
      · subst hji
        rw [getElem?_set_of_some hst] at hj
        revert hj
        split <;> (intro hj; cases hj)
      · rw [List.getElem?_set_ne (Ne.symm hji)] at hj
        exact inv.doneEq j v hj
  | finish i hst =>
    refine ⟨?_, ?_, ?_, ?_, ?_, ?_, ?_⟩
    · show (s.st.set i _).length = cfg.length
      rw [List.length_set]; exact inv.len
    · show s.arrived = (s.st.set i _).countP proposedB
      rw [countP_set_of_getElem? proposedB hst, inv.count]
      have h1 := countP_one_of_getElem? proposedB hst rfl
      simp only [proposedB, reduceIte]
      omega
    · intro j v u hcj hsj hpu
      show v ≤ s.maxST
      by_cases hji : j = i
      · subst hji
        exact inv.ub j v _ hcj hst rfl
      · rw [List.getElem?_set_ne (Ne.symm hji)] at hsj
        exact inv.ub j v u hcj hsj hpu
    · show s.maxST = 0 ∨ _
      rcases inv.att with h0 | ⟨j, v, u, hcj, hsj, hpu, hv⟩
      · exact Or.inl h0
      · right
        by_cases hji : j = i
        · subst hji
          exact ⟨j, v, _, hcj, getElem?_set_of_some hst _, rfl, hv⟩
        · exact ⟨j, v, u, hcj,
            by rw [List.getElem?_set_ne (Ne.symm hji)]; exact hsj, hpu, hv⟩
    · exact inv.nonneg
    · intro j u hj hu
      show s.arrived = cfg.length
      by_cases hji : j = i
      · subst hji
        exact inv.relN j _ hst rfl
      · rw [List.getElem?_set_ne (Ne.symm hji)] at hj
        exact inv.relN j u hj hu
    · intro j v hj
      show v = s.maxST
      by_cases hji : j = i
      · subst hji
        rw [getElem?_set_of_some hst] at hj
        cases hj
        rfl
      · rw [List.getElem?_set_ne (Ne.symm hji)] at hj
        exact inv.doneEq j v hj

theorem inv_multi {cfg : List Int} {s s' : SysSt} (inv : BarInv cfg s)
    (h : Relation.ReflTransGen (Step cfg) s s') : BarInv cfg s' := by
  induction h with
  | refl => exact inv
  | tail _ hstep ih => exact inv_step ih hstep

theorem inv_reachable {cfg : List Int} {s : SysSt} (h : Reachable cfg s) :
    BarInv cfg s :=
  inv_multi (inv_start cfg) h

/-- Once the counter equals number_of_federates, every thread has proposed. -/
theorem all_proposed {cfg : List Int} {s : SysSt} (inv : BarInv cfg s)
    (hN : s.arrived = cfg.length) :
    ∀ (i : Nat) (u : TStat), s.st[i]? = some u → proposedB u = true := by
  intro i u hu
  have hcnt : s.st.countP proposedB = s.st.length := by
    rw [← inv.count, hN, inv.len]
  exact List.countP_eq_length.mp hcnt _ (List.getElem?_mem hu)

/-- A single step never decreases max_start_time. -/
theorem step_monotone {cfg : List Int} {s s' : SysSt} (h : Step cfg s s') :
    s.maxST ≤ s'.maxST := by
  cases h with
  | propose i t hst ht =>
    show s.maxST ≤ maxUpd s.maxST t
    rw [maxUpd_eq_max]; exact le_max_left _ _
  | wake i hst => exact le_refl _
  | finish i hst => exact le_refl _

/-- After the last proposal has been accepted, no step changes max_start_time
or the counter. -/
theorem step_freeze {cfg : List Int} {s s' : SysSt} (inv : BarInv cfg s)
    (hN : s.arrived = cfg.length) (h : Step cfg s s') :
    s'.maxST = s.maxST ∧ s'.arrived = s.arrived := by
  cases h with
  | propose i t hst ht =>
    have := all_proposed inv hN i _ hst
    cases this
  | wake i hst => exact ⟨rfl, rfl⟩
  | finish i hst => exact ⟨rfl, rfl⟩

/-- After the last proposal has been accepted, max_start_time is frozen along
every continuation of the run. -/
theorem reach_freeze {cfg : List Int} {s s' : SysSt} (inv : BarInv cfg s)
    (hN : s.arrived = cfg.length)
    (h : Relation.ReflTransGen (Step cfg) s s') :
    s'.maxST = s.maxST ∧ s'.arrived = s.arrived := by
  induction h with
  | refl => exact ⟨rfl, rfl⟩
  | tail hab hstep ih =>
    have invb := inv_multi inv hab
    have hNb : _ = cfg.length := ih.2.trans hN
    have hfr := step_freeze invb hNb hstep
    exact ⟨hfr.1.trans ih.1, hfr.2.trans ih.2⟩

/-- When all proposals are in, max_start_time is exactly the fold of max over
all decoded instants, started at the initial value 0. -/
theorem final_max {cfg : List Int} {s : SysSt} (inv : BarInv cfg s)
    (hN : s.arrived = cfg.length) : s.maxST = cfg.foldl max 0 := by
  have hub : ∀ x ∈ cfg, x ≤ s.maxST := by
    intro x hx
    obtain ⟨j, hj⟩ := List.mem_iff_getElem?.mp hx
    have hjlt : j < s.st.length := by
      rw [inv.len]; exact (List.getElem?_eq_some_iff.mp hj).1
    have hstj : s.st[j]? = some (s.st[j]) := List.getElem?_eq_getElem hjlt
    exact inv.ub j x _ hj hstj (all_proposed inv hN j _ hstj)
  have h1 : s.maxST ≤ cfg.foldl max 0 := by
    rcases inv.att with h0 | ⟨j, v, u, hcj, hsj, hpu, hv⟩
    · rw [h0]; exact le_foldl_max 0 cfg
    · rw [hv]; exact mem_le_foldl_max 0 (List.getElem?_mem hcj)
  exact le_antisymm h1 (foldl_max_le inv.nonneg hub)

/-- A finished thread certifies that the barrier was complete and recorded the
aggregated maximum. -/
theorem done_val {cfg : List Int} {s : SysSt} (hr : Reachable cfg s)
    {i : Nat} {v : Int} (hd : s.st[i]? = some (.done v)) :
    s.arrived = cfg.length ∧ v = cfg.foldl max 0 := by
  have inv := inv_reachable hr
  have hN := inv.relN i _ hd rfl
  exact ⟨hN, (inv.doneEq i v hd).trans (final_max inv hN)⟩

/-! Unfolding lemmas for the read loop. -/

theorem readLoop_done {evs : List ReadEv} {acc : List Nat}
    (h : 9 ≤ acc.length) : readLoop evs acc = .got (acc.take 9) := by
  unfold readLoop
  rw [if_pos h]

theorem readLoop_chunk {bs : List Nat} {rest : List ReadEv} {acc : List Nat}
    (h : ¬ 9 ≤ acc.length) :
    readLoop (.chunk bs :: rest) acc = readLoop rest (acc ++ bs) := by
  rw [readLoop.eq_def]
  rw [if_neg h]

theorem readLoop_eof {rest : List ReadEv} {acc : List Nat}
    (h : ¬ 9 ≤ acc.length) : readLoop (.eof :: rest) acc = .closedEarly := by
  unfold readLoop
  rw [if_neg h]

theorem readLoop_err {rest : List ReadEv} {acc : List Nat}
    (h : ¬ 9 ≤ acc.length) : readLoop (.err :: rest) acc = .fatal := by
  unfold readLoop
  rw [if_neg h]

/-- Generalized accumulation property of the read loop: under the POSIX read
contract, as soon as the delivered bytes reach 9 in total, the loop returns
the first 9 bytes of the stream appended to what was already accumulated, and
reads nothing further (any schedule extension is ignored). -/
theorem readLoop_chunks (evs : List ReadEv) (acc : List Nat)
    (hacc : acc.length ≤ 9) (hwf : chunksWF evs (9 - acc.length) = true)
    (hsum : 9 ≤ acc.length + (streamBytes evs).length) :
    ∀ more : List ReadEv, readLoop (evs ++ more) acc =
      .got ((acc ++ streamBytes evs).take 9) := by
  induction evs generalizing acc with
  | nil =>
    intro more
    have h9 : acc.length = 9 := by
      simp only [streamBytes, List.length_nil] at hsum
      omega
    rw [readLoop_done (le_of_eq h9.symm), streamBytes, List.append_nil]
  | cons e rest ih =>
    intro more
    cases e with
    | chunk bs =>
      by_cases hg : 9 ≤ acc.length
      · rw [readLoop_done hg, streamBytes,
          List.take_append_of_le_length hg]
      · have hk : 9 - acc.length = (8 - acc.length) + 1 := by omega
        rw [hk] at hwf
        simp only [chunksWF, Bool.and_eq_true, decide_eq_true_eq] at hwf
        obtain ⟨⟨hpos, hle⟩, hrest⟩ := hwf
        rw [List.cons_append, readLoop_chunk hg]
        have hacc' : (acc ++ bs).length ≤ 9 := by
          rw [List.length_append]; omega
        have hwf' : chunksWF rest (9 - (acc ++ bs).length) = true := by
          have he : 9 - (acc ++ bs).length = (8 - acc.length) + 1 - bs.length := by
            rw [List.length_append]; omega
          rw [he]; exact hrest
        have hsum' : 9 ≤ (acc ++ bs).length + (streamBytes rest).length := by
          simp only [streamBytes, List.length_append] at hsum ⊢
          omega
        rw [ih (acc ++ bs) hacc' hwf' hsum' more, streamBytes,
          List.append_assoc]
    | eof =>
      have h9 : 9 ≤ acc.length := by
        simp only [streamBytes, List.length_nil] at hsum
        omega
      rw [readLoop_done h9, streamBytes, List.append_nil]
    | err =>
      have h9 : 9 ≤ acc.length := by
        simp only [streamBytes, List.length_nil] at hsum
        omega
      rw [readLoop_done h9, streamBytes, List.append_nil]

/-- If each message decodes to the corresponding instant, the decoded run
configuration is that instant list. -/
theorem decodedList_eq {msgs : List (List Nat)} {ts : List Int}
    (hlen : msgs.length = ts.length)
    (hdec : ∀ (i : Nat) (m : List Nat) (t : Int), msgs[i]? = some m →
      ts[i]? = some t → decodeInstant (m.drop 1) = t) :
    decodedList msgs = ts := by
  apply List.ext_getElem?
  intro n
  rw [decodedList, List.getElem?_map]
  cases hm : msgs[n]? with
  | none =>
    have hn : msgs.length ≤ n := List.getElem?_eq_none_iff.mp hm
    rw [List.getElem?_eq_none (hlen ▸ hn)]
    rfl
  | some m =>
    have hn : n < msgs.length := (List.getElem?_eq_some_iff.mp hm).1
    have hn' : n < ts.length := hlen ▸ hn
    have ht : ts[n]? = some (ts[n]) := List.getElem?_eq_getElem hn'
    rw [ht, Option.map_some']
    exact congrArg some (hdec n m _ hm ht)

/-! Step constructors restated against an explicitly given successor state, so
concrete runs can be checked by evaluation. -/

theorem step_propose_eq (cfg : List Int) (s s' : SysSt) (i : Nat) (t : Int)
    (hst : s.st[i]? = some .start) (ht : cfg[i]? = some t)
    (he : s' = ⟨s.arrived + 1, maxUpd s.maxST t,
      s.st.set i (if s.arrived + 1 = cfg.length then .released else .waiting)⟩) :
    Step cfg s s' := by
  rw [he]; exact Step.propose i t hst ht

theorem step_wake_eq (cfg : List Int) (s s' : SysSt) (i : Nat)
    (hst : s.st[i]? = some .waiting)
    (he : s' = ⟨s.arrived, s.maxST,
      s.st.set i (if s.arrived < cfg.length then .waiting else .released)⟩) :
    Step cfg s s' := by
  rw [he]; exact Step.wake i hst

theorem step_finish_eq (cfg : List Int) (s s' : SysSt) (i : Nat)
    (hst : s.st[i]? = some .released)
    (he : s' = ⟨s.arrived, s.maxST, s.st.set i (.done s.maxST)⟩) :
    Step cfg s s' := by
  rw [he]; exact Step.finish i hst

/-! Concrete runs used to evaluate the theorems on explicit inputs. -/

/-- A valid proposal message: TIMESTAMP tag, instant 100. -/
def msgA : List Nat := [9, 0, 0, 0, 0, 0, 0, 0, 100]

/-- A valid proposal message carrying the negative instant -1. -/
def msgNeg : List Nat := [9, 255, 255, 255, 255, 255, 255, 255, 255]

/-- A malformed-tag proposal message (tag 5) carrying instant 300. -/
def msgBad : List Nat := [5, 0, 0, 0, 0, 0, 0, 1, 44]

/-- A valid proposal message carrying instant 150. -/
def msgGood : List Nat := [9, 0, 0, 0, 0, 0, 0, 0, 150]

def cfgB : List Int := [100, 200]

def cfgC : List Int := [-5, -3]

/-- A schedule that delivers 5 bytes and then closes the connection. -/
def evsEarly : List ReadEv := [.chunk [9, 0, 0, 0, 0], .eof]

/-- A schedule delivering a 9-byte message in partial reads of 3, 4, 2 bytes. -/
def evsC8 : List ReadEv :=
  [.chunk [9, 0, 0], .chunk [0, 0, 0, 0], .chunk [0, 200]]

theorem reachA_done :
    Reachable (decodedList [msgA]) ⟨1, 100, [TStat.done 100]⟩ :=
  Relation.ReflTransGen.tail
    (Relation.ReflTransGen.single
      (step_propose_eq (decodedList [msgA]) (startSt (decodedList [msgA]))
        ⟨1, 100, [TStat.released]⟩ 0 100 (by decide) (by decide) (by decide)))
    (step_finish_eq (decodedList [msgA]) ⟨1, 100, [TStat.released]⟩
      ⟨1, 100, [TStat.done 100]⟩ 0 (by decide) (by decide))

theorem reachNeg_done :
    Reachable (decodedList [msgNeg]) ⟨1, 0, [TStat.done 0]⟩ :=
  Relation.ReflTransGen.tail
    (Relation.ReflTransGen.single
      (step_propose_eq (decodedList [msgNeg]) (startSt (decodedList [msgNeg]))
        ⟨1, 0, [TStat.released]⟩ 0 (-1) (by decide) (by decide) (by decide)))
    (step_finish_eq (decodedList [msgNeg]) ⟨1, 0, [TStat.released]⟩
      ⟨1, 0, [TStat.done 0]⟩ 0 (by decide) (by decide))

theorem reachB_mid :
    Reachable cfgB ⟨2, 200, [TStat.waiting, TStat.released]⟩ :=
  Relation.ReflTransGen.tail
    (Relation.ReflTransGen.single
      (step_propose_eq cfgB (startSt cfgB)
        ⟨1, 100, [TStat.waiting, TStat.start]⟩ 0 100
        (by decide) (by decide) (by decide)))
    (step_propose_eq cfgB ⟨1, 100, [TStat.waiting, TStat.start]⟩
      ⟨2, 200, [TStat.waiting, TStat.released]⟩ 1 200
      (by decide) (by decide) (by decide))

theorem reachB_fin1 :
    Reachable cfgB ⟨2, 200, [TStat.released, TStat.done 200]⟩ :=
  Relation.ReflTransGen.tail
    (Relation.ReflTransGen.tail reachB_mid
      (step_wake_eq cfgB ⟨2, 200, [TStat.waiting, TStat.released]⟩
        ⟨2, 200, [TStat.released, TStat.released]⟩ 0 (by decide) (by decide)))
    (step_finish_eq cfgB ⟨2, 200, [TStat.released, TStat.released]⟩
      ⟨2, 200, [TStat.released, TStat.done 200]⟩ 1 (by decide) (by decide))

theorem reachC_done :
    Reachable cfgC ⟨2, 0, [TStat.waiting, TStat.done 0]⟩ :=
  Relation.ReflTransGen.tail
    (Relation.ReflTransGen.tail
      (Relation.ReflTransGen.single
        (step_propose_eq cfgC (startSt cfgC)
          ⟨1, 0, [TStat.waiting, TStat.start]⟩ 0 (-5)
          (by decide) (by decide) (by decide)))
      (step_propose_eq cfgC ⟨1, 0, [TStat.waiting, TStat.start]⟩
        ⟨2, 0, [TStat.waiting, TStat.released]⟩ 1 (-3)
        (by decide) (by decide) (by decide)))
    (step_finish_eq cfgC ⟨2, 0, [TStat.waiting, TStat.released]⟩
      ⟨2, 0, [TStat.waiting, TStat.done 0]⟩ 1 (by decide) (by decide))

def msgsC6 : List (List Nat) := [msgBad, msgGood]

/-! Claim theorems. -/

/-- C1 (amended): for every run with N >= 1 connected peers in which each peer
sends a complete well-formed 9-byte proposal carrying signed instant t_i, the
response value every finished handler writes back equals max(0, t_1 ... t_N):
the fold of max over the proposals started from the initial value 0 of
max_start_time (rti.c line 67), equivalently the line 142-144 accumulation.
It equals max(t_1 ... t_N) only when some proposal is nonnegative. -/
theorem C1_response_is_max_with_zero (msgs : List (List Nat)) (ts : List Int)
    (hN : 0 < ts.length) (hlen : msgs.length = ts.length)
    (hwf : ∀ (i : Nat) (m : List Nat) (t : Int), msgs[i]? = some m →
      ts[i]? = some t → m.length = 9 ∧ m.headD 0 = TIMESTAMP ∧
        decodeInstant (m.drop 1) = t)
    (s : SysSt) (hr : Reachable (decodedList msgs) s)
    (i : Nat) (v : Int) (hd : s.st[i]? = some (.done v)) :
    v = ts.foldl max 0 ∧ v = aggregate ts := by
  have hdl : decodedList msgs = ts :=
    decodedList_eq hlen fun j m t hm ht => (hwf j m t hm ht).2.2
  rw [hdl] at hr
  have h := (done_val hr hd).2
  exact ⟨h, by rw [aggregate_eq_foldl_max]; exact h⟩

/-- C1 counterexample: with N = 1 and a well-formed proposal carrying the
instant -1, the finished handler's response value is 0, while the spec's
stated value max(t_1) is -1. -/
theorem C1_counterexample :
    Reachable (decodedList [msgNeg]) ⟨1, 0, [TStat.done 0]⟩
    ∧ specMaxProposals (decodedList [msgNeg]) = -1
    ∧ (0 : Int) ≠ specMaxProposals (decodedList [msgNeg]) :=
  ⟨reachNeg_done, by decide, by decide⟩

theorem C1_witness :
    Reachable (decodedList [msgA]) ⟨1, 100, [TStat.done 100]⟩
    ∧ (100 : Int) = aggregate [100] := by
  refine ⟨reachA_done, ?_⟩
  refine (C1_response_is_max_with_zero [msgA] [100] (by decide) (by decide)
    ?_ _ reachA_done 0 100 (by decide)).2
  intro i m t hm ht
  match i with
  | 0 =>
    have hm' : some msgA = some m := hm
    have ht' : some (100 : Int) = some t := ht
    cases hm'
    cases ht'
    exact ⟨by decide, by decide, by decide⟩
  | n + 1 => exact Option.noConfusion hm

/-- C2: under the interleaving semantics, a thread is past the barrier only
when num_feds_proposed_start equals number_of_federates (no early return from
the critical section); when the count is reached, every thread still blocked
in pthread_cond_wait has an enabled release step (the broadcast of line 147
wakes it and the line 151 guard lets it through); and any two finished
threads recorded the identical aggregated maximum. -/
theorem C2_barrier_release_iff (cfg : List Int) (s : SysSt)
    (hr : Reachable cfg s) :
    (∀ (i : Nat) (t : TStat), s.st[i]? = some t → relOrDone t = true →
      s.arrived = cfg.length)
    ∧ (s.arrived = cfg.length → ∀ i : Nat, s.st[i]? = some .waiting →
      Step cfg s ⟨s.arrived, s.maxST, s.st.set i .released⟩)
    ∧ (∀ (i j : Nat) (v w : Int), s.st[i]? = some (.done v) →
      s.st[j]? = some (.done w) → v = w) := by
  have inv := inv_reachable hr
  refine ⟨fun i t h hro => inv.relN i t h hro, ?_, ?_⟩
  · intro hN i hw
    have hnlt : ¬ s.arrived < cfg.length := by omega
    have he : (⟨s.arrived, s.maxST, s.st.set i
        (if s.arrived < cfg.length then TStat.waiting else TStat.released)⟩ :
          SysSt)
        = ⟨s.arrived, s.maxST, s.st.set i TStat.released⟩ := by
      rw [if_neg hnlt]
    exact he ▸ Step.wake i hw
  · exact fun i j v w hv hw =>
      (inv.doneEq i v hv).trans (inv.doneEq j w hw).symm

theorem C2_witness :
    Reachable cfgB ⟨2, 200, [TStat.waiting, TStat.released]⟩
    ∧ (2 : Nat) = cfgB.length
    ∧ Step cfgB ⟨2, 200, [TStat.waiting, TStat.released]⟩
        ⟨2, 200, ([TStat.waiting, TStat.released] : List TStat).set 0
          TStat.released⟩ := by
  refine ⟨reachB_mid, ?_, ?_⟩
  · exact (C2_barrier_release_iff cfgB _ reachB_mid).1 1 .released
      (by decide) (by decide)
  · exact (C2_barrier_release_iff cfgB _ reachB_mid).2.1 (by decide) 0
      (by decide)

/-- C3: max_start_time is monotonically non-decreasing along every step of a
run; once num_feds_proposed_start equals number_of_federates it never changes
again along any continuation; and every finished handler wrote back exactly
the current (hence frozen) max_start_time. -/
theorem C3_monotone_frozen (cfg : List Int) (s : SysSt)
    (hr : Reachable cfg s) :
    (∀ s' : SysSt, Step cfg s s' → s.maxST ≤ s'.maxST)
    ∧ (s.arrived = cfg.length → ∀ s' : SysSt,
        Relation.ReflTransGen (Step cfg) s s' → s'.maxST = s.maxST)
    ∧ (∀ (i : Nat) (v : Int), s.st[i]? = some (.done v) → v = s.maxST) := by
  have inv := inv_reachable hr
  exact ⟨fun s' h => step_monotone h,
    fun hN s' h => (reach_freeze inv hN h).1,
    fun i v hd => inv.doneEq i v hd⟩

theorem C3_witness :
    Reachable cfgB ⟨2, 200, [TStat.released, TStat.done 200]⟩
    ∧ (200 : Int) = (⟨2, 200, [TStat.released, TStat.done 200]⟩ : SysSt).maxST
    ∧ (⟨2, 200, [TStat.done 200, TStat.done 200]⟩ : SysSt).maxST
        = (⟨2, 200, [TStat.released, TStat.done 200]⟩ : SysSt).maxST := by
  refine ⟨reachB_fin1, ?_, ?_⟩
  · exact (C3_monotone_frozen cfgB _ reachB_fin1).2.2 1 200 (by decide)
  · exact (C3_monotone_frozen cfgB _ reachB_fin1).2.1 (by decide) _
      (Relation.ReflTransGen.single
        (step_finish_eq cfgB ⟨2, 200, [TStat.released, TStat.done 200]⟩
          ⟨2, 200, [TStat.done 200, TStat.done 200]⟩ 0
          (by decide) (by decide)))

/-- C4 (amended): if the connection reaches end of stream before 9 bytes have
been read, the handler aborts without registering any proposal (it never
reaches the critical section, so the arrived count and the aggregated maximum
are untouched by it), but it does not close that peer's connection: the
return at rti.c line 122 skips the close() of line 175, so the socket is only
reclaimed at process exit. -/
theorem C4_early_eof_no_proposal_no_close (evs : List ReadEv)
    (h : readLoop evs [] = .closedEarly) :
    handlerFront evs = .earlyExit ∧ handlerProposal evs = none ∧
      closesSocket (handlerFront evs) = false := by
  have hf : handlerFront evs = .earlyExit := by
    unfold handlerFront
    rw [h]
  exact ⟨hf, by unfold handlerProposal; rw [hf], by rw [hf]; rfl⟩

/-- C4 counterexample: a peer that delivers 5 bytes and then closes makes the
handler abort without a proposal, and the socket is not closed by the
handler, contradicting the claim that it closes that peer's connection. -/
theorem C4_counterexample :
    handlerFront evsEarly = .earlyExit ∧ handlerProposal evsEarly = none ∧
      closesSocket (handlerFront evsEarly) = false := by
  decide

theorem C4_witness :
    readLoop evsEarly [] = .closedEarly
    ∧ (handlerFront evsEarly = .earlyExit ∧ handlerProposal evsEarly = none ∧
        closesSocket (handlerFront evsEarly) = false) :=
  ⟨by decide, C4_early_eof_no_proposal_no_close evsEarly (by decide)⟩

/-- C5: the read guard (line 120), write guards (lines 167, 172) and bind
guard (line 95) treat a failing call as fatal, but the accept guard at line
198 compares the malloc'd array pointer instead of the accepted descriptor:
at any nonnegative pointer value (here 4096) a failed accept returning -1
does not trigger the fatal error path, contradicting the claim that a failed
accept is detected and fatal. -/
theorem C5_accept_failure_not_fatal :
    acceptCheckTriggers 4096 (-1) = false
    ∧ bindFatal (-1) = true ∧ readFatal (-1) = true ∧ writeFatal (-1) = true := by
  decide

/-- C6: a complete 9-byte message whose first byte differs from TIMESTAMP
makes the handler emit the warning of lines 133-135 but still proceed: the
decoded instant is submitted to the barrier unchanged; and in the concrete
N = 2 scenario (malformed tag carrying 300, valid tag carrying 150) every
finished handler's response value is 300. -/
theorem C6_malformed_tag_still_used (evs : List ReadEv) (buf : List Nat)
    (hg : readLoop evs [] = .got buf) (hbad : buf.headD 0 ≠ TIMESTAMP) :
    tagWarns buf = true
    ∧ handlerFront evs = .completed (buf.headD 0) (decodeInstant (buf.drop 1))
    ∧ handlerProposal evs = some (decodeInstant (buf.drop 1))
    ∧ (∀ s : SysSt, Reachable (decodedList msgsC6) s →
        ∀ (i : Nat) (v : Int), s.st[i]? = some (.done v) → v = 300) := by
  have hf : handlerFront evs
      = .completed (buf.headD 0) (decodeInstant (buf.drop 1)) := by
    unfold handlerFront
    rw [hg]
  refine ⟨?_, hf, by unfold handlerProposal; rw [hf], ?_⟩
  · unfold tagWarns
    exact bne_iff_ne.mpr hbad
  · intro s hrs i v hd
    have h := (done_val hrs hd).2
    have hval : (decodedList msgsC6).foldl max 0 = 300 := by decide
    rw [hval] at h
    exact h

theorem C6_witness :
    readLoop [ReadEv.chunk msgBad] [] = .got msgBad
    ∧ msgBad.headD 0 ≠ TIMESTAMP
    ∧ tagWarns msgBad = true
    ∧ handlerProposal [ReadEv.chunk msgBad] = some 300 := by
  have h := C6_malformed_tag_still_used [ReadEv.chunk msgBad] msgBad
    (by decide) (by decide)
  refine ⟨by decide, by decide, h.1, ?_⟩
  rw [h.2.2.1]
  decide

/-- C7: the aggregation of proposals is order-independent: for any two
permutations of the same multiset of instants, feeding them to the
line 142-144 accumulation in either order yields the same final value. -/
theorem C7_aggregate_perm_invariant (l l' : List Int) (h : l.Perm l') :
    aggregate l = aggregate l' := by
  rw [aggregate_eq_foldl_max, aggregate_eq_foldl_max]
  exact h.foldl_eq' (fun x _ y _ z => by rw [max_assoc, max_comm x y, ← max_assoc]) 0

theorem C7_witness :
    ([3, 1, 2] : List Int).Perm [2, 3, 1]
    ∧ aggregate [3, 1, 2] = aggregate [2, 3, 1] := by
  have hp : ([3, 1, 2] : List Int).Perm [2, 3, 1] := by decide
  exact ⟨hp, C7_aggregate_perm_invariant _ _ hp⟩

/-- C8: over any schedule of successful partial reads obeying the POSIX read
contract whose delivered bytes total at least 9, the loop accumulates across
reads and assembles exactly the first 9 bytes of the stream, and it stops
reading there: any extension of the schedule is never consumed. -/
theorem C8_read_accumulates (evs : List ReadEv)
    (hwf : chunksWF evs 9 = true)
    (hsum : 9 ≤ (streamBytes evs).length) :
    readLoop evs [] = .got ((streamBytes evs).take 9)
    ∧ ((streamBytes evs).take 9).length = 9
    ∧ ∀ more : List ReadEv, readLoop (evs ++ more) [] =
        .got ((streamBytes evs).take 9) := by
  have h := readLoop_chunks evs [] (by simp) (by simpa using hwf)
    (by simpa using hsum)
  have h1 := h []
  rw [List.append_nil] at h1
  refine ⟨by simpa using h1, ?_, fun more => by simpa using h more⟩
  rw [List.length_take]
  omega

theorem C8_witness :
    chunksWF evsC8 9 = true
    ∧ 9 ≤ (streamBytes evsC8).length
    ∧ readLoop evsC8 [] = .got ((streamBytes evsC8).take 9)
    ∧ ((streamBytes evsC8).take 9).length = 9 := by
  have h := C8_read_accumulates evsC8 (by decide) (by decide)
  exact ⟨by decide, by decide, h.1, h.2.1⟩

/-- C9: because max_start_time is initialized to 0 (line 67) and only updated
on a strictly larger proposal (lines 142-144), every finished handler's
response value is the fold of max over the proposals started at 0; it is
always nonnegative, and if every proposal is negative the response is 0. -/
theorem C9_response_nonneg (cfg : List Int) (s : SysSt)
    (hr : Reachable cfg s) (i : Nat) (v : Int)
    (hd : s.st[i]? = some (.done v)) :
    v = cfg.foldl max 0 ∧ 0 ≤ v ∧ ((∀ t ∈ cfg, t < 0) → v = 0) := by
  have inv := inv_reachable hr
  have h := (done_val hr hd).2
  refine ⟨h, ?_, ?_⟩
  · exact (inv.doneEq i v hd).symm ▸ inv.nonneg
  · intro hneg
    rw [h, foldl_max_zero_of_neg hneg]

theorem C9_witness :
    Reachable cfgC ⟨2, 0, [TStat.waiting, TStat.done 0]⟩
    ∧ (0 : Int) = cfgC.foldl max 0
    ∧ (∀ t ∈ cfgC, t < 0) := by
  refine ⟨reachC_done, ?_, by decide⟩
  exact (C9_response_nonneg cfgC _ reachC_done 1 0 (by decide)).1

/-- C10: the response is sent as two separate writes, 1 tag byte then 8
payload bytes, and only a strictly negative write return value is treated as
an error: any nonnegative return values, including 0 and short counts, fall
through to close(), so an incompletely transmitted response is not detected. -/
theorem C10_write_error_only_negative (w1 w2 v : Int)
    (h1 : 0 ≤ w1) (h2 : 0 ≤ w2) :
    sendResponse w1 w2 = .sentOk
    ∧ (sendWrites v).map Prod.fst = [1, 8]
    ∧ ((sendWrites v).map fun p => p.2.length) = [1, 8]
    ∧ sendResponse (-1) w2 = .fatalSend
    ∧ sendResponse w1 (-1) = .fatalSend := by
  refine ⟨?_, rfl, ?_, ?_, ?_⟩
  · rw [sendResponse, if_neg (not_lt.mpr h1), if_neg (not_lt.mpr h2)]
  · simp [sendWrites, encodeInstant]
  · rw [sendResponse, if_pos (by omega)]
  · rw [sendResponse, if_neg (not_lt.mpr h1), if_pos (by omega)]

theorem C10_witness :
    (0 : Int) ≤ 0 ∧ (0 : Int) ≤ 3
    ∧ sendResponse 0 3 = .sentOk
    ∧ (sendWrites 42).map Prod.fst = [1, 8] := by
  have h := C10_write_error_only_negative 0 3 42 (by decide) (by decide)
  exact ⟨by decide, by decide, h.1, h.2.1⟩
